import Mathlib

/-!
Shallow embedding of the wasmparser repository (src/src/lib.rs and
src/src/ast.rs), a nom-based decoder for the WebAssembly binary format.

Modelling conventions:
* A byte is a `Nat` (values below 256 in well-formed inputs); the input
  stream is a `List Nat`, mirroring the Rust `&[u8]` slices.
* `PResult` mirrors `IResult` from nom together with the possibility of an
  unstructured abort:
  - `ok rest value`   is `Ok((rest, value))`;
  - `err rest kind`   is `Err(nom::Err::Error((rest, kind)))`;
  - `incomplete`      is `Err(nom::Err::Incomplete(..))`, which the
    streaming combinators return when the input ends too early (this is
    the only "unexpected end of input" outcome of the code);
  - `fault`           marks an unstructured abort of the process: a
    failed `expect` call, or an arithmetic operation that is rejected by
    the overflow checks of a debug build (left shift by 64 or more on a
    64-bit integer, subtraction below zero on `u32`).
* Machine integers are `Nat` with explicit wrap-around: `u64` values are
  kept below `2 ^ 64` (`% 2 ^ 64` where a shift may exceed the width),
  `as u32` casts are `% 2 ^ 32`, and `i64` values are the twos-complement
  bit pattern converted with `toInt64` at the point where the Rust code
  returns the signed result.
-/

namespace Wasm

/- ===== Data model, from src/src/ast.rs ===== -/

inductive WasmType where
  | I32
  | I64
  | F32
  | F64
  | Empty
deriving DecidableEq

inductive WasmElemType where
  | FuncRef
deriving DecidableEq

inductive WasmGlobalType where
  | Var (t : WasmType)
  | Const (t : WasmType)
deriving DecidableEq

inductive WasmBlockType where
  | Empty
  | Valtype (t : WasmType)
  | TypeIndex (i : Int)
deriving DecidableEq

structure WasmFunctionType where
  parameter_types : List WasmType
  result_types : List WasmType
deriving DecidableEq

structure WasmLimitType where
  min : Nat
  max : Option Nat
deriving DecidableEq

structure WasmTableType where
  elemtype : WasmElemType
  limits : WasmLimitType
deriving DecidableEq

/-- Section contents; a custom section keeps its name as the list of UTF-8
bytes of the decoded Rust `String`, and its payload as the borrowed bytes. -/
inductive WasmSectionContent where
  | CustomSection (sname : List Nat) (bytes : List Nat)
  | TypeSection (types : List WasmFunctionType)
  | ImportSection
  | FunctionSection
  | TableSection
  | MemorySection
  | GlobalSection
  | ExportSection
  | StartSection
  | ElementSection
  | CodeSection
  | DataSection
  | UnknownSection
deriving DecidableEq

/- ===== Parser plumbing, mirroring the IResult type of nom ===== -/

/-- Error kinds produced by the code: `Tag` from `tag_return`, `ManyMN`
from the stall check of `many_m_n`. -/
inductive ErrKind where
  | Tag
  | ManyMN
deriving DecidableEq

/-- Result of one parsing step; see the header comment for the reading of
the four constructors. -/
inductive PResult (α : Type) where
  | ok (rest : List Nat) (value : α)
  | err (rest : List Nat) (kind : ErrKind)
  | incomplete
  | fault
deriving DecidableEq

/-- The `?` operator of the Rust code: propagate everything but success. -/
def pbind {α β : Type} (r : PResult α) (f : List Nat → α → PResult β) :
    PResult β :=
  match r with
  | .ok rest v => f rest v
  | .err rest kind => .err rest kind
  | .incomplete => .incomplete
  | .fault => .fault

/-- Embeds `map_output` from src/src/lib.rs: map the success value, keep the rest. -/
def map_output {α β : Type} (f : α → β) (r : PResult α) : PResult β :=
  match r with
  | .ok rest v => .ok rest (f v)
  | .err rest kind => .err rest kind
  | .incomplete => .incomplete
  | .fault => .fault

/-- The nom combinator `bytes::streaming::take(c)`: `Incomplete` when fewer than `c`
bytes remain, otherwise split off the first `c` bytes. -/
def take (c : Nat) (input : List Nat) : PResult (List Nat) :=
  if input.length < c then .incomplete
  else .ok (input.drop c) (input.take c)

/-- Embeds `take1` from src/src/lib.rs: `take(1)` followed by indexing the
(one-element) output at 0. -/
def take1 (input : List Nat) : PResult Nat :=
  map_output (fun out => out.headD 0) (take 1 input)

/-- Embeds `tag_return` from src/src/lib.rs: read one byte; if it equals `t`
return `ret`, otherwise a `Tag` error carrying the input after the byte. -/
def tag_return {α : Type} (t : Nat) (ret : α) (input : List Nat) :
    PResult α :=
  pbind (take1 input) fun next b =>
    if b = t then .ok next ret else .err next .Tag

/-- Embeds `tag_` from src/src/lib.rs. -/
def tag_ (t : Nat) (input : List Nat) : PResult Nat :=
  tag_return t t input

/-- The nom combinator `alt` restricted to two branches: try `p`; on a structured
error try `q` (the later error wins, as with the tuple `ParseError`
instance); `Incomplete` and aborts propagate. -/
def altOr {α : Type} (p q : List Nat → PResult α) (input : List Nat) :
    PResult α :=
  match p input with
  | .err _ _ => q input
  | r => r

/-- Embeds `many_m` from src/src/lib.rs, i.e. the nom combinator `many_m_n(m, m, f)`: run `f`
exactly `m` times.  A sub-parser error before the count is reached
propagates (the tuple `ParseError::append` discards the `ManyMN` wrapper);
a sub-parser success that consumes nothing is the stall error of nom. -/
def many_m {α : Type} (m : Nat) (f : List Nat → PResult α)
    (input : List Nat) : PResult (List α) :=
  match m with
  | 0 => .ok input []
  | Nat.succ k =>
    match f input with
    | .ok rest v =>
      if rest = input then .err input .ManyMN
      else
        match many_m k f rest with
        | .ok rest2 vs => .ok rest2 (v :: vs)
        | .err r e => .err r e
        | .incomplete => .incomplete
        | .fault => .fault
    | .err r e => .err r e
    | .incomplete => .incomplete
    | .fault => .fault

/- ===== Auxiliary numeric conversions ===== -/

/-- Reinterpret a 64-bit pattern as a signed value, as when the Rust code
returns an `i64` it has been assembling bitwise. -/
def toInt64 (n : Nat) : Int :=
  if n < 2 ^ 63 then (n : Int) else (n : Int) - 2 ^ 64

/-- The Rust `as i32` cast on an `i64`: keep the low 32 bits, reinterpret
as twos complement. -/
def wrapI32 (i : Int) : Int :=
  let m := i % 2 ^ 32
  if m < 2 ^ 31 then m else m - 2 ^ 32

/-- UTF-8 validity of a byte list, as checked by `std::str::from_utf8`.
`expected` lists the admissible ranges (inclusive lower bound, exclusive
upper bound) for pending continuation bytes of the current code point. -/
def utf8Run (expected : List (Nat × Nat)) : List Nat → Bool
  | [] => expected.isEmpty
  | c :: rest =>
    match expected with
    | (lo, hi) :: exp2 =>
      decide (lo ≤ c) && decide (c < hi) && utf8Run exp2 rest
    | [] =>
      if c < 0x80 then utf8Run [] rest
      else if c < 0xC2 then false
      else if c < 0xE0 then utf8Run [(0x80, 0xC0)] rest
      else if c = 0xE0 then utf8Run [(0xA0, 0xC0), (0x80, 0xC0)] rest
      else if c = 0xED then utf8Run [(0x80, 0xA0), (0x80, 0xC0)] rest
      else if c < 0xF0 then utf8Run [(0x80, 0xC0), (0x80, 0xC0)] rest
      else if c = 0xF0 then
        utf8Run [(0x90, 0xC0), (0x80, 0xC0), (0x80, 0xC0)] rest
      else if c < 0xF4 then
        utf8Run [(0x80, 0xC0), (0x80, 0xC0), (0x80, 0xC0)] rest
      else if c = 0xF4 then
        utf8Run [(0x80, 0x90), (0x80, 0xC0), (0x80, 0xC0)] rest
      else false

def isValidUtf8 (bytes : List Nat) : Bool := utf8Run [] bytes

/- ===== WASM values, from src/src/lib.rs ===== -/

/-- Embeds `byte` from src/src/lib.rs. -/
def byte (input : List Nat) : PResult Nat :=
  take1 input

/-- The body of the loop of `unsigned_int`: each iteration reads a byte
(`take1` inlined as a pattern match, `Incomplete` on an empty rest),
left-shifts its low 7 bits by the running shift amount and ORs them into
the accumulator, then continues while the high bit is set.  The shift is
performed before the continuation test, so once `shift` has reached 64
the next byte aborts a debug build (`fault`); in the Rust source nothing
ever compares `shift` with the `size` parameter. -/
def unsigned_int_loop (result shift : Nat) : List Nat → PResult Nat
  | [] => .incomplete
  | b :: n =>
    if 64 ≤ shift then .fault
    else
      let result2 := result ||| ((b &&& 0x7f) <<< shift % 2 ^ 64)
      if b &&& 0x80 = 0 then .ok n result2
      else unsigned_int_loop result2 (shift + 7) n

/-- Embeds `unsigned_int` from src/src/lib.rs.  The `size` parameter is unused,
exactly as in the source. -/
def unsigned_int (size : Nat) (input : List Nat) : PResult Nat :=
  let _ := size
  unsigned_int_loop 0 0 input

/-- The loop of `signed_int`: the same accumulation as `unsigned_int` on
the twos-complement bit pattern; on the terminating byte, if the
incremented shift is still below `size` and bit 0x40 of the byte is set,
OR in all bits from that position up (Rust `result |= !0 << shift`, a
debug-build abort if that shift reaches 64). -/
def signed_int_loop (size result shift : Nat) : List Nat → PResult Int
  | [] => .incomplete
  | b :: n =>
    if 64 ≤ shift then .fault
    else
      let result2 := result ||| ((b &&& 0x7f) <<< shift % 2 ^ 64)
      let shift2 := shift + 7
      if b &&& 0x80 = 0 then
        if shift2 < size ∧ b &&& 0x40 ≠ 0 then
          if 64 ≤ shift2 then .fault
          else .ok n (toInt64 (result2 ||| (2 ^ 64 - 2 ^ shift2)))
        else .ok n (toInt64 result2)
      else signed_int_loop size result2 shift2 n

/-- Embeds `signed_int` from src/src/lib.rs. -/
def signed_int (size : Nat) (input : List Nat) : PResult Int :=
  signed_int_loop size 0 0 input

/-- Embeds `vector_length` from src/src/lib.rs: `unsigned_int(32, input)` with
the `u64` result cast `as u32`. -/
def vector_length (input : List Nat) : PResult Nat :=
  map_output (fun n => n % 2 ^ 32) (unsigned_int 32 input)

/-- Embeds `name` from src/src/lib.rs: a `vector_length`, that many raw bytes,
then `std::str::from_utf8(bytes).expect("a valid string")` — the `expect`
aborts the process on invalid UTF-8 (`fault`); on success the decoded
string consists of the taken bytes. -/
def name (input : List Nat) : PResult (List Nat) :=
  pbind (vector_length input) fun next length =>
    pbind (take length next) fun next2 bytes =>
      if isValidUtf8 bytes then .ok next2 bytes else .fault

/- ===== WASM types, from src/src/lib.rs ===== -/

/-- Embeds `valtype` from src/src/lib.rs. -/
def valtype (input : List Nat) : PResult WasmType :=
  altOr (tag_return 0x7F WasmType.I32)
    (altOr (tag_return 0x7E WasmType.I64)
      (altOr (tag_return 0x7D WasmType.F32)
        (tag_return 0x7C WasmType.F64))) input

/-- Embeds `resulttype` from src/src/lib.rs. -/
def resulttype (input : List Nat) : PResult (List WasmType) :=
  pbind (vector_length input) fun next length =>
    many_m length valtype next

/-- Embeds `functype` from src/src/lib.rs. -/
def functype (input : List Nat) : PResult WasmFunctionType :=
  pbind (tag_return 0x60 () input) fun next _ =>
    pbind (resulttype next) fun next2 parameter_types =>
      pbind (resulttype next2) fun next3 result_types =>
        .ok next3 ⟨parameter_types, result_types⟩

/-- Embeds `limits_without_max` from src/src/lib.rs. -/
def limits_without_max (input : List Nat) : PResult WasmLimitType :=
  pbind (tag_return 0x00 () input) fun next _ =>
    pbind (unsigned_int 32 next) fun next2 n =>
      .ok next2 ⟨n % 2 ^ 32, none⟩

/-- Embeds `limits_with_max` from src/src/lib.rs. -/
def limits_with_max (input : List Nat) : PResult WasmLimitType :=
  pbind (tag_return 0x01 () input) fun next _ =>
    pbind (unsigned_int 32 next) fun next2 n =>
      pbind (unsigned_int 32 next2) fun next3 m =>
        .ok next3 ⟨n % 2 ^ 32, some (m % 2 ^ 32)⟩

/-- Embeds `limits` from src/src/lib.rs. -/
def limits (input : List Nat) : PResult WasmLimitType :=
  altOr limits_without_max limits_with_max input

/-- Embeds `elemtype` from src/src/lib.rs. -/
def elemtype (input : List Nat) : PResult WasmElemType :=
  tag_return 0x70 WasmElemType.FuncRef input

/-- Embeds `tabletype` from src/src/lib.rs. -/
def tabletype (input : List Nat) : PResult WasmTableType :=
  pbind (elemtype input) fun next et =>
    pbind (limits next) fun next2 lim =>
      .ok next2 ⟨et, lim⟩

/-- Embeds `globaltype` from src/src/lib.rs; the catch-all arm of the Rust
`match` aborts, which the `alt` in front makes unreachable. -/
def globaltype (input : List Nat) : PResult WasmGlobalType :=
  pbind (valtype input) fun next t =>
    pbind (altOr (tag_ 0x00) (tag_ 0x01) next) fun next2 m =>
      if m = 0x00 then .ok next2 (.Const t)
      else if m = 0x01 then .ok next2 (.Var t)
      else .fault

/- ===== Instructions (block types), from src/src/lib.rs ===== -/

def blocktype_empty (input : List Nat) : PResult WasmBlockType :=
  tag_return 0x40 WasmBlockType.Empty input

def blocktype_valtype (input : List Nat) : PResult WasmBlockType :=
  map_output (fun t => WasmBlockType.Valtype t) (valtype input)

def blocktype_typeindex (input : List Nat) : PResult WasmBlockType :=
  map_output (fun index => WasmBlockType.TypeIndex (wrapI32 index))
    (signed_int 33 input)

def blocktype (input : List Nat) : PResult WasmBlockType :=
  altOr blocktype_empty (altOr blocktype_valtype blocktype_typeindex) input

/- ===== Modules, from src/src/lib.rs ===== -/

def typeidx (input : List Nat) : PResult Nat :=
  map_output (fun idx => idx % 2 ^ 32) (unsigned_int 32 input)

def funcidx (input : List Nat) : PResult Nat :=
  map_output (fun idx => idx % 2 ^ 32) (unsigned_int 32 input)

def labelidx (input : List Nat) : PResult Nat :=
  map_output (fun idx => idx % 2 ^ 32) (unsigned_int 32 input)

/-- Embeds `section_id_size` from src/src/lib.rs: the id byte of the section, then
the declared byte-size of the payload. -/
def section_id_size (id : Nat) (input : List Nat) : PResult Nat :=
  pbind (tag_ id input) fun next _ =>
    pbind (vector_length next) fun next2 size =>
      .ok next2 size

/-- Embeds `custom_section` from src/src/lib.rs: id 0x00, declared size, a name,
then `size - bytes_consumed_by_name` raw bytes.  The subtraction is on
`u32`; when the name consumed more than the declared size a debug build
aborts on the underflow (`fault`). -/
def custom_section (input : List Nat) : PResult WasmSectionContent :=
  pbind (section_id_size 0x00 input) fun next_begin size =>
    pbind (name next_begin) fun next nm =>
      let consumed := (next_begin.length - next.length) % 2 ^ 32
      if consumed ≤ size then
        pbind (take (size - consumed) next) fun next2 bytes =>
          .ok next2 (.CustomSection nm bytes)
      else .fault

/-- Embeds `type_section` from src/src/lib.rs: id 0x01, declared size (bound to
`_` and never checked against anything), then a vector of `functype`s. -/
def type_section (input : List Nat) : PResult WasmSectionContent :=
  pbind (section_id_size 0x01 input) fun next _size =>
    pbind (vector_length next) fun next2 length =>
      map_output (fun ts => WasmSectionContent.TypeSection ts)
        (many_m length functype next2)

/- ===== Reference values for the varint theorems ===== -/

/-- The mathematical value of an LEB128 body: the low 7 bits of each
byte of `bs` at successive weights 128^0, 128^1, …, with `last` the
terminating byte on top. -/
def lebVal : List Nat → Nat → Nat
  | [], last => last &&& 0x7f
  | b :: bs, last => (b &&& 0x7f) + 128 * lebVal bs last

/- ===== Arithmetic helper lemmas ===== -/

/-- ORing a value below `2 ^ n` with a multiple of `2 ^ n` is addition:
the two operands occupy disjoint bit ranges. -/
lemma lor_mul_pow_eq_add {a n : Nat} (b : Nat) (h : a < 2 ^ n) :
    a ||| b * 2 ^ n = a + b * 2 ^ n := by
  rw [Nat.lor_comm, Nat.mul_comm b, ← Nat.mul_add_lt_is_or h, Nat.mul_comm]
  exact Nat.add_comm _ _

/-- One accumulation step of the varint loops: OR the low 7 bits of `b`,
shifted by `shift`, into an accumulator that still fits below the shift
position.  The `% 2 ^ 64` of the embedding is inert while the shifted
bits stay inside the 64-bit word. -/
lemma or_low7_shl {result b shift : Nat} (hres : result < 2 ^ shift)
    (hsh : shift + 7 ≤ 64) :
    result ||| ((b &&& 0x7f) <<< shift % 2 ^ 64) =
      result + (b &&& 0x7f) * 2 ^ shift := by
  have hb : b &&& 0x7f < 2 ^ 7 := Nat.lt_succ_of_le Nat.and_le_right
  have hlt : (b &&& 0x7f) <<< shift < 2 ^ 64 := by
    rw [Nat.shiftLeft_eq]
    calc (b &&& 0x7f) * 2 ^ shift < 2 ^ 7 * 2 ^ shift := by
          have := Nat.two_pow_pos shift
          nlinarith
      _ = 2 ^ (7 + shift) := by rw [pow_add]
      _ ≤ 2 ^ 64 := Nat.pow_le_pow_right (by norm_num) (by omega)
  rw [Nat.mod_eq_of_lt hlt, Nat.shiftLeft_eq, lor_mul_pow_eq_add _ hres]

/-- The accumulator stays below the next shift position. -/
lemma acc_lt {result b shift : Nat} (hres : result < 2 ^ shift) :
    result + (b &&& 0x7f) * 2 ^ shift < 2 ^ (shift + 7) := by
  have hb : b &&& 0x7f ≤ 127 := Nat.and_le_right
  have h2 : 2 ^ (shift + 7) = 128 * 2 ^ shift := by rw [pow_add]; ring
  have h3 : (b &&& 0x7f) * 2 ^ shift ≤ 127 * 2 ^ shift :=
    Nat.mul_le_mul_right _ hb
  omega

/-- A `lebVal` of a body of `k + 1` bytes needs at most `7 * (k + 1)` bits. -/
lemma lebVal_lt (bs : List Nat) (last : Nat) :
    lebVal bs last < 2 ^ (7 * bs.length + 7) := by
  induction bs with
  | nil =>
    have : last &&& 0x7f ≤ 127 := Nat.and_le_right
    simpa [lebVal] using by omega
  | cons b bs ih =>
    have hb : b &&& 0x7f ≤ 127 := Nat.and_le_right
    have h2 : 2 ^ (7 * (b :: bs).length + 7) =
        128 * 2 ^ (7 * bs.length + 7) := by
      simp only [List.length_cons]
      rw [show 7 * (bs.length + 1) + 7 = (7 * bs.length + 7) + 7 by ring,
        pow_add]
      ring
    simp only [lebVal]
    omega

/- ===== Characterization of the varint loops ===== -/

/-- Running the `unsigned_int` loop over continuation bytes `bs` followed
by a terminating byte `last`: as long as the shifts stay inside the
64-bit word, the accumulator collects the low 7 bits of every byte at
weights `2 ^ shift`, `2 ^ (shift + 7)`, …, and the remainder after the
terminator is returned unchanged. -/
lemma unsigned_int_loop_spec (bs : List Nat) :
    ∀ (result shift last : Nat) (rest : List Nat),
      (∀ b ∈ bs, b &&& 0x80 ≠ 0) → last &&& 0x80 = 0 →
      shift + 7 * bs.length + 7 ≤ 64 → result < 2 ^ shift →
      unsigned_int_loop result shift (bs ++ last :: rest) =
        .ok rest (result + lebVal bs last * 2 ^ shift) := by
  induction bs with
  | nil =>
    intro result shift last rest _ hterm hlen hres
    simp only [List.nil_append, unsigned_int_loop, lebVal]
    rw [if_neg (by omega), or_low7_shl hres (by simpa using hlen), if_pos hterm]
  | cons b bs ih =>
    intro result shift last rest hcont hterm hlen hres
    have hb : b &&& 0x80 ≠ 0 := hcont b (List.mem_cons_self b bs)
    have hlen7 : shift + 7 ≤ 64 := by
      simp only [List.length_cons] at hlen; omega
    simp only [List.cons_append, unsigned_int_loop]
    rw [if_neg (by omega), or_low7_shl hres hlen7, if_neg hb]
    simp only [List.append_eq]
    rw [ih _ _ last rest (fun x hx => hcont x (List.mem_cons_of_mem b hx)) hterm
      (by simp only [List.length_cons] at hlen; omega) (acc_lt hres)]
    congr 1
    simp only [lebVal]
    rw [pow_add]
    ring

/-- The same characterization for the `signed_int` loop, including the
sign-extension step on the terminating byte. -/
lemma signed_int_loop_spec (bs : List Nat) :
    ∀ (size result shift last : Nat) (rest : List Nat),
      (∀ b ∈ bs, b &&& 0x80 ≠ 0) → last &&& 0x80 = 0 →
      shift + 7 * bs.length + 7 ≤ 64 → result < 2 ^ shift → size ≤ 64 →
      signed_int_loop size result shift (bs ++ last :: rest) =
        .ok rest (toInt64
          (if shift + 7 * bs.length + 7 < size ∧ last &&& 0x40 ≠ 0 then
            result + lebVal bs last * 2 ^ shift +
              (2 ^ 64 - 2 ^ (shift + 7 * bs.length + 7))
          else result + lebVal bs last * 2 ^ shift)) := by
  induction bs with
  | nil =>
    intro size result shift last rest _ hterm hlen hres hsize
    simp only [List.nil_append, signed_int_loop, lebVal, List.length_nil,
      Nat.mul_zero, Nat.add_zero] at *
    rw [if_neg (by omega), or_low7_shl hres (by omega), if_pos hterm]
    by_cases hc : shift + 7 < size ∧ last &&& 0x40 ≠ 0
    · rw [if_pos hc, if_neg (by omega), if_pos hc]
      have hacc : result + (last &&& 0x7f) * 2 ^ shift < 2 ^ (shift + 7) :=
        acc_lt hres
      have hdecomp : (2 : Nat) ^ 64 - 2 ^ (shift + 7) =
          (2 ^ (64 - (shift + 7)) - 1) * 2 ^ (shift + 7) := by
        rw [Nat.sub_mul, one_mul, ← pow_add,
          Nat.sub_add_cancel (show shift + 7 ≤ 64 by omega)]
      rw [hdecomp, lor_mul_pow_eq_add _ hacc, ← hdecomp]
    · rw [if_neg hc, if_neg hc]
  | cons b bs ih =>
    intro size result shift last rest hcont hterm hlen hres hsize
    have hb : b &&& 0x80 ≠ 0 := hcont b (List.mem_cons_self b bs)
    have hlen7 : shift + 7 ≤ 64 := by
      simp only [List.length_cons] at hlen; omega
    simp only [List.cons_append, signed_int_loop]
    rw [if_neg (by omega), or_low7_shl hres hlen7, if_neg hb]
    simp only [List.append_eq]
    rw [ih size _ _ last rest (fun x hx => hcont x (List.mem_cons_of_mem b hx))
      hterm (by simp only [List.length_cons] at hlen; omega) (acc_lt hres) hsize]
    have he : shift + 7 + 7 * bs.length + 7 = shift + 7 * (b :: bs).length + 7 := by
      simp only [List.length_cons]
      ring
    rw [he]
    have hv : result + (b &&& 0x7f) * 2 ^ shift + lebVal bs last * 2 ^ (shift + 7) =
        result + lebVal (b :: bs) last * 2 ^ shift := by
      simp only [lebVal]
      rw [pow_add]
      ring
    rw [hv]

/- ===== Suffix preservation (cursor discipline) ===== -/

/-- Success of a decoder leaves a suffix of its input as the remainder:
the input is the consumed prefix followed by the remainder. -/
def SuffixPreserving {α : Type} (p : List Nat → PResult α) : Prop :=
  ∀ input rest v, p input = .ok rest v → rest.IsSuffix input

lemma pbind_ok {α β : Type} {r : PResult α} {f : List Nat → α → PResult β}
    {rest : List Nat} {v : β} (h : pbind r f = .ok rest v) :
    ∃ mid w, r = .ok mid w ∧ f mid w = .ok rest v := by
  cases r with
  | ok m w => exact ⟨m, w, rfl, h⟩
  | err a b => exact absurd h (by simp [pbind])
  | incomplete => exact absurd h (by simp [pbind])
  | fault => exact absurd h (by simp [pbind])

lemma map_output_ok {α β : Type} {f : α → β} {r : PResult α}
    {rest : List Nat} {v : β} (h : map_output f r = .ok rest v) :
    ∃ w, r = .ok rest w ∧ v = f w := by
  cases r with
  | ok m w =>
    simp only [map_output, PResult.ok.injEq] at h
    exact ⟨w, by rw [h.1], h.2.symm⟩
  | err a b => exact absurd h (by simp [map_output])
  | incomplete => exact absurd h (by simp [map_output])
  | fault => exact absurd h (by simp [map_output])

lemma take_ok {c : Nat} {input rest v : List Nat}
    (h : take c input = .ok rest v) : rest = input.drop c := by
  unfold take at h
  split at h
  · exact absurd h (by simp)
  · exact (PResult.ok.injEq _ _ _ _).mp h |>.1.symm

lemma take_suffix (c : Nat) : SuffixPreserving (take c) := by
  intro input rest v h
  rw [take_ok h]
  exact List.drop_suffix c input

lemma take1_suffix : SuffixPreserving take1 := by
  intro input rest v h
  obtain ⟨w, hw, -⟩ := map_output_ok h
  exact take_suffix 1 input rest w hw

lemma tag_return_suffix {α : Type} (t : Nat) (ret : α) :
    SuffixPreserving (tag_return t ret) := by
  intro input rest v h
  obtain ⟨mid, w, h1, h2⟩ := pbind_ok h
  have hmid := take1_suffix input mid w h1
  split at h2
  · obtain ⟨h3, -⟩ := (PResult.ok.injEq _ _ _ _).mp h2
    rw [← h3]
    exact hmid
  · exact absurd h2 (by simp)

lemma tag_suffix (t : Nat) : SuffixPreserving (tag_ t) :=
  fun input rest v h => tag_return_suffix t t input rest v h

lemma altOr_suffix {α : Type} {p q : List Nat → PResult α}
    (hp : SuffixPreserving p) (hq : SuffixPreserving q) :
    SuffixPreserving (altOr p q) := by
  intro input rest v h
  unfold altOr at h
  split at h
  · exact hq input rest v h
  · exact hp input rest v h

/-- Definitional unfolding of `many_m` at a positive count. -/
lemma many_m_succ_eq {α : Type} (k : Nat) (f : List Nat → PResult α)
    (input : List Nat) :
    many_m (k + 1) f input =
      match f input with
      | .ok rest v =>
        if rest = input then .err input .ManyMN
        else
          match many_m k f rest with
          | .ok rest2 vs => .ok rest2 (v :: vs)
          | .err r e => .err r e
          | .incomplete => .incomplete
          | .fault => .fault
      | .err r e => .err r e
      | .incomplete => .incomplete
      | .fault => .fault := rfl

lemma many_m_suffix {α : Type} {f : List Nat → PResult α}
    (hf : SuffixPreserving f) : ∀ m, SuffixPreserving (many_m m f) := by
  intro m
  induction m with
  | zero =>
    intro input rest v h
    simp only [many_m, PResult.ok.injEq] at h
    rw [← h.1]
  | succ k ih =>
    intro input rest v h
    rw [many_m_succ_eq] at h
    cases hfi : f input with
    | ok mid w =>
      rw [hfi] at h
      simp only at h
      split at h
      · exact absurd h (by simp)
      · cases hmk : many_m k f mid with
        | ok rest2 vs =>
          rw [hmk] at h
          simp only [PResult.ok.injEq] at h
          rw [← h.1]
          exact (ih mid rest2 vs hmk).trans (hf input mid w hfi)
        | err r e => rw [hmk] at h; exact absurd h (by simp)
        | incomplete => rw [hmk] at h; exact absurd h (by simp)
        | fault => rw [hmk] at h; exact absurd h (by simp)
    | err r e => rw [hfi] at h; exact absurd h (by simp)
    | incomplete => rw [hfi] at h; exact absurd h (by simp)
    | fault => rw [hfi] at h; exact absurd h (by simp)

lemma unsigned_int_loop_suffix :
    ∀ (input : List Nat) (result shift : Nat) (rest : List Nat) (v : Nat),
      unsigned_int_loop result shift input = .ok rest v →
      rest.IsSuffix input := by
  intro input
  induction input with
  | nil =>
    intro r s rest v h
    exact absurd h (by simp [unsigned_int_loop])
  | cons b n ih =>
    intro r s rest v h
    rw [unsigned_int_loop] at h
    split at h
    · exact absurd h (by simp)
    · split at h
      · obtain ⟨h1, -⟩ := (PResult.ok.injEq _ _ _ _).mp h
        rw [← h1]
        exact List.suffix_cons b n
      · exact (ih _ _ rest v h).trans (List.suffix_cons b n)

lemma unsigned_int_suffix (size : Nat) : SuffixPreserving (unsigned_int size) :=
  fun input rest v h => unsigned_int_loop_suffix input 0 0 rest v h

lemma signed_int_loop_suffix :
    ∀ (input : List Nat) (size result shift : Nat) (rest : List Nat) (v : Int),
      signed_int_loop size result shift input = .ok rest v →
      rest.IsSuffix input := by
  intro input
  induction input with
  | nil =>
    intro sz r s rest v h
    exact absurd h (by simp [signed_int_loop])
  | cons b n ih =>
    intro sz r s rest v h
    rw [signed_int_loop] at h
    simp only at h
    split at h
    · exact absurd h (by simp)
    · split at h
      · split at h
        · split at h
          · exact absurd h (by simp)
          · obtain ⟨h1, -⟩ := (PResult.ok.injEq _ _ _ _).mp h
            rw [← h1]
            exact List.suffix_cons b n
        · obtain ⟨h1, -⟩ := (PResult.ok.injEq _ _ _ _).mp h
          rw [← h1]
          exact List.suffix_cons b n
      · exact (ih _ _ _ rest v h).trans (List.suffix_cons b n)

lemma signed_int_suffix (size : Nat) : SuffixPreserving (signed_int size) :=
  fun input rest v h => signed_int_loop_suffix input size 0 0 rest v h

lemma map_output_suffix {α β : Type} {f : α → β} {p : List Nat → PResult α}
    (hp : SuffixPreserving p) :
    SuffixPreserving (fun input => map_output f (p input)) := by
  intro input rest v h
  obtain ⟨w, hw, -⟩ := map_output_ok h
  exact hp input rest w hw

lemma vector_length_suffix : SuffixPreserving vector_length :=
  map_output_suffix (unsigned_int_suffix 32)

lemma name_suffix : SuffixPreserving name := by
  intro input rest v h
  obtain ⟨mid, w, h1, h2⟩ := pbind_ok h
  obtain ⟨mid2, w2, h3, h4⟩ := pbind_ok h2
  have hs1 := vector_length_suffix input mid w h1
  have hs2 := take_suffix w mid mid2 w2 h3
  split at h4
  · obtain ⟨h5, -⟩ := (PResult.ok.injEq _ _ _ _).mp h4
    rw [← h5]
    exact hs2.trans hs1
  · exact absurd h4 (by simp)

lemma valtype_suffix : SuffixPreserving valtype :=
  altOr_suffix (tag_return_suffix _ _)
    (altOr_suffix (tag_return_suffix _ _)
      (altOr_suffix (tag_return_suffix _ _) (tag_return_suffix _ _)))

lemma resulttype_suffix : SuffixPreserving resulttype := by
  intro input rest v h
  obtain ⟨mid, w, h1, h2⟩ := pbind_ok h
  exact (many_m_suffix valtype_suffix w mid rest v h2).trans
    (vector_length_suffix input mid w h1)

lemma functype_suffix : SuffixPreserving functype := by
  intro input rest v h
  obtain ⟨m1, w1, h1, h2⟩ := pbind_ok h
  obtain ⟨m2, w2, h3, h4⟩ := pbind_ok h2
  obtain ⟨m3, w3, h5, h6⟩ := pbind_ok h4
  obtain ⟨h7, -⟩ := (PResult.ok.injEq _ _ _ _).mp h6
  rw [← h7]
  exact ((resulttype_suffix m2 m3 w3 h5).trans
    (resulttype_suffix m1 m2 w2 h3)).trans
    (tag_return_suffix 0x60 () input m1 w1 h1)

lemma byte_suffix : SuffixPreserving byte :=
  fun input rest v h => take1_suffix input rest v h

lemma limits_without_max_suffix : SuffixPreserving limits_without_max := by
  intro input rest v h
  obtain ⟨m1, w1, h1, h2⟩ := pbind_ok h
  obtain ⟨m2, w2, h3, h4⟩ := pbind_ok h2
  obtain ⟨h5, -⟩ := (PResult.ok.injEq _ _ _ _).mp h4
  rw [← h5]
  exact (unsigned_int_suffix 32 m1 m2 w2 h3).trans
    (tag_return_suffix 0x00 () input m1 w1 h1)

lemma limits_with_max_suffix : SuffixPreserving limits_with_max := by
  intro input rest v h
  obtain ⟨m1, w1, h1, h2⟩ := pbind_ok h
  obtain ⟨m2, w2, h3, h4⟩ := pbind_ok h2
  obtain ⟨m3, w3, h5, h6⟩ := pbind_ok h4
  obtain ⟨h7, -⟩ := (PResult.ok.injEq _ _ _ _).mp h6
  rw [← h7]
  exact ((unsigned_int_suffix 32 m2 m3 w3 h5).trans
    (unsigned_int_suffix 32 m1 m2 w2 h3)).trans
    (tag_return_suffix 0x01 () input m1 w1 h1)

lemma limits_suffix : SuffixPreserving limits :=
  altOr_suffix limits_without_max_suffix limits_with_max_suffix

lemma elemtype_suffix : SuffixPreserving elemtype :=
  fun input rest v h =>
    tag_return_suffix 0x70 WasmElemType.FuncRef input rest v h

lemma tabletype_suffix : SuffixPreserving tabletype := by
  intro input rest v h
  obtain ⟨m1, w1, h1, h2⟩ := pbind_ok h
  obtain ⟨m2, w2, h3, h4⟩ := pbind_ok h2
  obtain ⟨h5, -⟩ := (PResult.ok.injEq _ _ _ _).mp h4
  rw [← h5]
  exact (limits_suffix m1 m2 w2 h3).trans (elemtype_suffix input m1 w1 h1)

lemma globaltype_suffix : SuffixPreserving globaltype := by
  intro input rest v h
  obtain ⟨m1, w1, h1, h2⟩ := pbind_ok h
  obtain ⟨m2, w2, h3, h4⟩ := pbind_ok h2
  have hs := (altOr_suffix (tag_suffix 0x00) (tag_suffix 0x01)) m1 m2 w2 h3
  have hs1 := valtype_suffix input m1 w1 h1
  split at h4
  · obtain ⟨h5, -⟩ := (PResult.ok.injEq _ _ _ _).mp h4
    rw [← h5]
    exact hs.trans hs1
  · split at h4
    · obtain ⟨h5, -⟩ := (PResult.ok.injEq _ _ _ _).mp h4
      rw [← h5]
      exact hs.trans hs1
    · exact absurd h4 (by simp)

lemma blocktype_suffix : SuffixPreserving blocktype :=
  altOr_suffix (tag_return_suffix 0x40 WasmBlockType.Empty)
    (altOr_suffix (map_output_suffix valtype_suffix)
      (map_output_suffix (signed_int_suffix 33)))

lemma typeidx_suffix : SuffixPreserving typeidx :=
  map_output_suffix (unsigned_int_suffix 32)

lemma funcidx_suffix : SuffixPreserving funcidx :=
  map_output_suffix (unsigned_int_suffix 32)

lemma labelidx_suffix : SuffixPreserving labelidx :=
  map_output_suffix (unsigned_int_suffix 32)

lemma section_id_size_suffix (id : Nat) :
    SuffixPreserving (section_id_size id) := by
  intro input rest v h
  obtain ⟨m1, w1, h1, h2⟩ := pbind_ok h
  obtain ⟨m2, w2, h3, h4⟩ := pbind_ok h2
  obtain ⟨h5, -⟩ := (PResult.ok.injEq _ _ _ _).mp h4
  rw [← h5]
  exact (vector_length_suffix m1 m2 w2 h3).trans (tag_suffix id input m1 w1 h1)

lemma custom_section_suffix : SuffixPreserving custom_section := by
  intro input rest v h
  obtain ⟨m1, w1, h1, h2⟩ := pbind_ok h
  obtain ⟨m2, w2, h3, h4⟩ := pbind_ok h2
  have hs1 := section_id_size_suffix 0x00 input m1 w1 h1
  have hs2 := name_suffix m1 m2 w2 h3
  simp only at h4
  split at h4
  · obtain ⟨m3, w3, h5, h6⟩ := pbind_ok h4
    obtain ⟨h7, -⟩ := (PResult.ok.injEq _ _ _ _).mp h6
    rw [← h7]
    exact ((take_suffix _ m2 m3 w3 h5).trans hs2).trans hs1
  · exact absurd h4 (by simp)

lemma type_section_suffix : SuffixPreserving type_section := by
  intro input rest v h
  obtain ⟨m1, w1, h1, h2⟩ := pbind_ok h
  obtain ⟨m2, w2, h3, h4⟩ := pbind_ok h2
  obtain ⟨w3, h5, -⟩ := map_output_ok h4
  exact ((many_m_suffix functype_suffix w2 m2 rest w3 h5).trans
    (vector_length_suffix m1 m2 w2 h3)).trans
    (section_id_size_suffix 0x01 input m1 w1 h1)

/- ===== Claim theorems ===== -/

/-- Claim C1: the claim that every decoding function always returns a
success or structured error value fails on the code: `name` aborts the
process through a failed `expect` on a length-1 payload that is not valid
UTF-8, and the varint decoders abort a build with overflow checks once
eleven continuation bytes push the shift amount past 64. -/
theorem name_and_varints_abort :
    name [0x01, 0xFF] = .fault ∧
    signed_int 32 (List.replicate 11 0x80) = .fault := by
  exact ⟨by decide, by decide⟩

/-- Claim C2: `unsigned_int` performs no overflow check at all — the
`size` parameter is unused — so `unsigned_int 32` happily succeeds with
the value `2 ^ 32`, which needs 33 bits, instead of failing with an
IntegerOverflow error. -/
theorem unsigned_int_overflow_unchecked :
    unsigned_int 32 [0x80, 0x80, 0x80, 0x80, 0x10] = .ok [] 4294967296 ∧
    2 ^ 32 ≤ 4294967296 := by
  exact ⟨by decide, by norm_num⟩

/-- Claim C3: `type_section` never compares the bytes consumed by the
payload with the declared byte-size: on input `[0x01, 0x63, 0x00]` the
declared size is 99 but the payload (an empty functype vector) consumes a
single byte, and the decode nevertheless succeeds. -/
theorem type_section_length_unchecked :
    section_id_size 0x01 [0x01, 0x63, 0x00] = .ok [0x00] 99 ∧
    type_section [0x01, 0x63, 0x00] = .ok [] (.TypeSection []) := by
  exact ⟨by decide, by decide⟩

/-- Claim C4: on a payload that is not valid UTF-8 the `name` decoder
aborts the process (`expect`) instead of returning a Utf8Error value; on
a valid payload it returns the string. -/
theorem name_invalid_utf8_aborts :
    name [0x02, 0xC3, 0x28] = .fault ∧
    name [0x05, 104, 101, 108, 108, 111] = .ok [] [104, 101, 108, 108, 111] := by
  exact ⟨by decide, by decide⟩

/-- Claim C5: too-short inputs mostly fail with the end-of-input result
(`Incomplete`), e.g. `byte` on the empty input and `unsigned_int` on ten
unterminated continuation bytes — but not always: on eleven continuation
bytes a build with overflow checks aborts instead, so the universal claim
fails on the code. -/
theorem short_input_not_always_end_error :
    take1 [] = .incomplete ∧
    byte [] = .incomplete ∧
    unsigned_int 32 (List.replicate 10 0x80) = .incomplete ∧
    unsigned_int 32 (List.replicate 11 0x80) = .fault := by
  exact ⟨by decide, by decide, by decide, by decide⟩

/-- Claim C6: `unsigned_int` accumulates the low 7 bits of each consumed
byte at bit offsets 0, 7, 14, … and stops at the first byte with the high
bit clear, returning the remainder after that byte. -/
theorem unsigned_int_seven_bit_acc (size : Nat) (bs : List Nat)
    (last : Nat) (rest : List Nat)
    (hcont : ∀ b ∈ bs, b &&& 0x80 ≠ 0) (hterm : last &&& 0x80 = 0)
    (hlen : 7 * bs.length + 7 ≤ 64) :
    unsigned_int size (bs ++ last :: rest) = .ok rest (lebVal bs last) := by
  have h := unsigned_int_loop_spec bs 0 0 last rest hcont hterm
    (by omega) (by norm_num)
  simpa [unsigned_int] using h

/-- Witness for C6: the example of the spec, `unsigned_int 32` over
`[0xE5, 0x8E, 0x26]` is 624485 with nothing left over. -/
theorem unsigned_int_seven_bit_acc_witness :
    unsigned_int 32 [0xE5, 0x8E, 0x26] = .ok [] 624485 :=
  (unsigned_int_seven_bit_acc 32 [0xE5, 0x8E] 0x26 []
    (by decide) (by decide) (by decide)).trans (by decide)

/-- Claim C7: `signed_int` performs the same 7-bit accumulation and, on
the terminating byte, sign-extends (subtracts `2 ^ offset`) exactly when
the consumed bit offset is still below `size` and bit 0x40 of that byte
is set. -/
theorem signed_int_sign_extends (size : Nat) (bs : List Nat) (last : Nat)
    (rest : List Nat) (hcont : ∀ b ∈ bs, b &&& 0x80 ≠ 0)
    (hterm : last &&& 0x80 = 0) (hlen : 7 * bs.length + 7 ≤ 64)
    (hsize : size ≤ 64) :
    signed_int size (bs ++ last :: rest) =
      .ok rest
        (if 7 * bs.length + 7 < size ∧ last &&& 0x40 ≠ 0 then
          (lebVal bs last : Int) - 2 ^ (7 * bs.length + 7)
        else (lebVal bs last : Int)) := by
  have h := signed_int_loop_spec bs size 0 0 last rest hcont hterm
    (by omega) (by norm_num) hsize
  simp only [Nat.zero_add, pow_zero, mul_one] at h
  have hE : lebVal bs last < 2 ^ (7 * bs.length + 7) := lebVal_lt bs last
  have hE63 : 7 * bs.length + 7 ≤ 63 := by omega
  have hpow : (2 : Nat) ^ (7 * bs.length + 7) ≤ 2 ^ 63 :=
    Nat.pow_le_pow_right (by norm_num) hE63
  have hcast : ((2 ^ (7 * bs.length + 7) : Nat) : Int) =
      (2 : Int) ^ (7 * bs.length + 7) := by push_cast; ring
  refine h.trans ?_
  congr 1
  by_cases hc : 7 * bs.length + 7 < size ∧ last &&& 0x40 ≠ 0
  · rw [if_pos hc, if_pos hc, toInt64, if_neg (by omega)]
    omega
  · rw [if_neg hc, if_neg hc, toInt64, if_pos (by omega)]

/-- Witness for C7: the example of the spec, `signed_int 32` over
`[0xC0, 0xBB, 0x78]` is -123456. -/
theorem signed_int_sign_extends_witness :
    signed_int 32 [0xC0, 0xBB, 0x78] = .ok [] (-123456) :=
  (signed_int_sign_extends 32 [0xC0, 0xBB] 0x78 []
    (by decide) (by decide) (by decide) (by decide)).trans (by decide)

/-- Claim C8: `custom_section` decodes id byte 0x00, a declared size, a
name, then an opaque span of `size - bytes_consumed_by_name` raw bytes;
on the example of the spec it yields name "hello" (its UTF-8 bytes) and
payload `[0xFF, 0xFE]`, consuming the whole input. -/
theorem custom_section_frames :
    custom_section [0x00, 0x08, 0x05, 104, 101, 108, 108, 111, 0xFF, 0xFE] =
      .ok [] (.CustomSection [104, 101, 108, 108, 111] [0xFF, 0xFE]) ∧
    ∀ input next1 size next2 nm,
      section_id_size 0x00 input = .ok next1 size →
      name next1 = .ok next2 nm →
      (next1.length - next2.length) % 2 ^ 32 ≤ size →
      custom_section input =
        map_output (fun bytes => WasmSectionContent.CustomSection nm bytes)
          (take (size - (next1.length - next2.length) % 2 ^ 32) next2) := by
  refine ⟨by decide, ?_⟩
  intro input next1 size next2 nm h1 h2 h3
  unfold custom_section
  rw [h1]
  simp only [pbind]
  rw [h2]
  simp only
  rw [if_pos h3]
  cases take (size - (next1.length - next2.length) % 2 ^ 32) next2 <;>
    simp [pbind, map_output]

/-- Witness for C8: instantiating the framing rule on the example input
reproduces the final `take` of the two payload bytes. -/
theorem custom_section_frames_witness :
    custom_section [0x00, 0x08, 0x05, 104, 101, 108, 108, 111, 0xFF, 0xFE] =
      map_output
        (fun bytes =>
          WasmSectionContent.CustomSection [104, 101, 108, 108, 111] bytes)
        (take (8 - (8 - 2) % 2 ^ 32) [0xFF, 0xFE]) :=
  custom_section_frames.2
    [0x00, 0x08, 0x05, 104, 101, 108, 108, 111, 0xFF, 0xFE]
    [0x05, 104, 101, 108, 108, 111, 0xFF, 0xFE] 8 [0xFF, 0xFE]
    [104, 101, 108, 108, 111] (by decide) (by decide) (by decide)

/-- Claim C9: every decoding function that succeeds returns a suffix of
its input as the remaining input: the input is always the consumed prefix
followed by the returned remainder. -/
theorem decoders_return_suffix :
    SuffixPreserving take1 ∧ SuffixPreserving byte ∧
    (∀ size, SuffixPreserving (unsigned_int size)) ∧
    (∀ size, SuffixPreserving (signed_int size)) ∧
    SuffixPreserving vector_length ∧ SuffixPreserving name ∧
    SuffixPreserving valtype ∧ SuffixPreserving resulttype ∧
    SuffixPreserving functype ∧ SuffixPreserving limits ∧
    SuffixPreserving elemtype ∧ SuffixPreserving tabletype ∧
    SuffixPreserving globaltype ∧ SuffixPreserving blocktype ∧
    SuffixPreserving typeidx ∧ SuffixPreserving funcidx ∧
    SuffixPreserving labelidx ∧
    (∀ id, SuffixPreserving (section_id_size id)) ∧
    SuffixPreserving custom_section ∧ SuffixPreserving type_section :=
  ⟨take1_suffix, byte_suffix, unsigned_int_suffix, signed_int_suffix,
    vector_length_suffix, name_suffix, valtype_suffix, resulttype_suffix,
    functype_suffix, limits_suffix, elemtype_suffix, tabletype_suffix,
    globaltype_suffix, blocktype_suffix, typeidx_suffix, funcidx_suffix,
    labelidx_suffix, section_id_size_suffix, custom_section_suffix,
    type_section_suffix⟩

/-- Witness for C9: `take1` on `[0x2A, 0xFE]` succeeds with remainder
`[0xFE]`, which is a suffix of the input. -/
theorem decoders_return_suffix_witness :
    List.IsSuffix [0xFE] [0x2A, 0xFE] :=
  decoders_return_suffix.1 [0x2A, 0xFE] [0xFE] 0x2A (by decide)

/-- Claim C10: `vector_length` is exactly `unsigned_int 32` truncated to
32 bits, so a varint encoding `2 ^ 33 - 1` succeeds with the wrapped
count `2 ^ 32 - 1` instead of failing. -/
theorem vector_length_truncates :
    (∀ input, vector_length input =
      map_output (fun n => n % 2 ^ 32) (unsigned_int 32 input)) ∧
    unsigned_int 32 [0xFF, 0xFF, 0xFF, 0xFF, 0x1F] = .ok [] 8589934591 ∧
    vector_length [0xFF, 0xFF, 0xFF, 0xFF, 0x1F] = .ok [] 4294967295 ∧
    2 ^ 32 ≤ 8589934591 := by
  exact ⟨fun _ => rfl, by decide, by decide, by norm_num⟩

end Wasm
